import Mathlib

/-!
Verification of the beekeeper topology-aware verification engine
(chunk-repair / smoke / pushsync checks) against its specification.

The Go source is embedded shallowly: byte sequences become `List Nat`,
`math/big` integers become `Nat`, fallible calls return `Option`, and the
ambient network is abstracted into response oracles passed as functions.
Components of the repository that are only declared here (the seeded
generator package and the bee chunk helpers) are modelled from the
specification text and marked as such in their doc comments.
-/

namespace Beekeeper

/-- A swarm address or chunk payload: a sequence of bytes. -/
abbrev Addr := List Nat

/-- `swarm.ZeroAddress`: the zero value of an address (nil byte slice). -/
def zeroAddr : Addr := []

/-- Reading a big-endian byte sequence as an unsigned integer
(`big.Int.SetBytes`). -/
def bytesToNat (bs : Addr) : Nat :=
  bs.foldl (fun acc b => acc * 256 + b) 0

/-- `distanceRaw x y` from the chunk-repair check: errors when the lengths
differ, otherwise the bytewise XOR of the two addresses. -/
def distanceRaw (x y : Addr) : Option Addr :=
  if x.length = y.length then some (List.zipWith Nat.xor x y) else none

/-- `distance x y` from the chunk-repair check: the XOR bytes read as a big
unsigned integer, or an error on length mismatch. -/
def distance (x y : Addr) : Option Nat :=
  (distanceRaw x y).map bytesToNat

/-- Total variant of the XOR distance, used to state ordering facts. -/
def distNat (x y : Addr) : Nat :=
  bytesToNat (List.zipWith Nat.xor x y)

theorem distance_eq_distNat {x y : Addr} (h : x.length = y.length) :
    distance x y = some (distNat x y) := by
  simp [distance, distanceRaw, distNat, h]

theorem bytesToNat_aux_eq_zero_iff (bs : Addr) :
    ∀ a : Nat, bs.foldl (fun acc b => acc * 256 + b) a = 0 ↔
      a = 0 ∧ ∀ b ∈ bs, b = 0 := by
  induction bs with
  | nil => simp
  | cons b bs ih =>
    intro a
    rw [List.foldl_cons, ih]
    constructor
    · rintro ⟨h, hall⟩
      have ha : a = 0 := by omega
      have hb0 : b = 0 := by omega
      refine ⟨ha, fun c hc => ?_⟩
      rcases List.mem_cons.mp hc with hc | hc
      · omega
      · exact hall c hc
    · rintro ⟨ha, hall⟩
      have hb0 : b = 0 := hall b (by simp)
      exact ⟨by omega, fun c hc => hall c (by simp [hc])⟩

theorem bytesToNat_eq_zero_iff (bs : Addr) :
    bytesToNat bs = 0 ↔ ∀ b ∈ bs, b = 0 := by
  rw [bytesToNat, bytesToNat_aux_eq_zero_iff]
  simp

theorem zipWith_xor_comm (x y : Addr) :
    List.zipWith Nat.xor x y = List.zipWith Nat.xor y x :=
  List.zipWith_comm_of_comm Nat.xor Nat.xor_comm x y

theorem zipWith_xor_self (x : Addr) :
    List.zipWith Nat.xor x x = List.replicate x.length 0 := by
  induction x with
  | nil => rfl
  | cons b bs ih =>
    rw [List.zipWith_cons_cons, List.length_cons, List.replicate_succ]
    exact congrArg₂ List.cons (Nat.xor_self b) ih

theorem distNat_self (x : Addr) : distNat x x = 0 := by
  rw [distNat, zipWith_xor_self, bytesToNat_eq_zero_iff]
  intro b hb
  exact (List.eq_of_mem_replicate hb)

theorem distNat_comm (x y : Addr) : distNat x y = distNat y x := by
  rw [distNat, distNat, zipWith_xor_comm]

theorem distNat_eq_zero_of_eq_len {x y : Addr} (hlen : x.length = y.length)
    (h : distNat x y = 0) : x = y := by
  rw [distNat, bytesToNat_eq_zero_iff] at h
  induction x generalizing y with
  | nil =>
    cases y with
    | nil => rfl
    | cons c cs => simp at hlen
  | cons b bs ih =>
    cases y with
    | nil => simp at hlen
    | cons c cs =>
      simp only [List.zipWith_cons_cons, List.mem_cons] at h
      have hbc : Nat.xor b c = 0 := h (Nat.xor b c) (Or.inl rfl)
      have hb : b = c := by
        have := Nat.xor_eq_zero.mp hbc
        exact this
      have hcs : bs = cs := by
        apply ih
        · simpa using hlen
        · intro z hz
          exact h z (Or.inr hz)
      rw [hb, hcs]

/-- C5: the XOR distance is symmetric, zero on equal arguments, zero only on
equal arguments (for equal-length operands), and errors with no value exactly
when the operand lengths differ. -/
theorem distance_spec (x y : Addr) :
    distance x y = distance y x ∧
    distance x x = some 0 ∧
    (x.length = y.length → (distance x y = some 0 ↔ x = y)) ∧
    (x.length ≠ y.length → distance x y = none) := by
  refine ⟨?_, ?_, ?_, ?_⟩
  · by_cases h : x.length = y.length
    · rw [distance_eq_distNat h, distance_eq_distNat h.symm, distNat_comm]
    · have h' : y.length ≠ x.length := fun hy => h hy.symm
      simp [distance, distanceRaw, h, h']
  · rw [distance_eq_distNat rfl, distNat_self]
  · intro h
    rw [distance_eq_distNat h]
    constructor
    · intro h0
      exact distNat_eq_zero_of_eq_len h (by simpa using h0)
    · intro hxy
      subst hxy
      rw [distNat_self]
  · intro h
    simp [distance, distanceRaw, h]

/-- C5 witness: the equal-length clause evaluated at concrete addresses. -/
theorem distance_spec_witness :
    ([0, 1] : Addr).length = ([0, 2] : Addr).length ∧
      (distance [0, 1] [0, 2] = some 0 ↔ ([0, 1] : Addr) = [0, 2]) :=
  ⟨rfl, ((distance_spec [0, 1] [0, 2]).2.2.1 rfl)⟩

/-! ### findFarthestNodes (chunk-repair check)

The Go function ranges twice over the overlay map with state
`(dist, overlayA, overlayC)`, skipping pairs of equal addresses and keeping
the first strictly larger distance.  Since Go map iteration order is not
fixed, the snapshot is embedded as a list whose order stands for one possible
iteration order. -/

/-- The ordered pairs visited by the nested `range` loops, in order. -/
def ffnPairs (addrs : List Addr) : List (Addr × Addr) :=
  addrs.flatMap (fun a => addrs.map (fun c => (a, c)))

/-- The body of `findFarthestNodes`: fold over the visited pairs, propagating
the `distance` error and keeping the first pair of strictly maximal
distance. -/
def ffnLoop : List (Addr × Addr) → Nat × Addr × Addr → Option (Nat × Addr × Addr)
  | [], st => some st
  | (a, c) :: rest, st =>
    if a = c then ffnLoop rest st
    else
      match distance a c with
      | none => none
      | some d => ffnLoop rest (if st.1 < d then (d, a, c) else st)

/-- `findFarthestNodes` from the chunk-repair check, over one iteration order
of the overlay map. -/
def findFarthestNodes (overlays : List (String × Addr)) : Option (Addr × Addr) :=
  (ffnLoop (ffnPairs (overlays.map (fun p => p.2))) (0, zeroAddr, zeroAddr)).map
    (fun st => (st.2.1, st.2.2))

/-- Brute-force reference: the maximum XOR distance over all ordered pairs of
distinct addresses of the snapshot. -/
def bruteMaxDist (addrs : List Addr) : Nat :=
  ((ffnPairs addrs).filter (fun p => p.1 ≠ p.2)).foldl
    (fun m p => max m (distNat p.1 p.2)) 0

/-- `minNodesRequired` from the chunk-repair check. -/
def minNodesRequired : Nat := 3

/-- The precondition checked by `getNodes` before `findFarthestNodes` is
called: it only compares the node count against `minNodesRequired`. -/
def getNodesSizeOk (size : Nat) : Bool := !(size < minNodesRequired)

theorem ffnLoop_spec (ps : List (Addr × Addr)) (st : Nat × Addr × Addr)
    (hlen : ∀ p ∈ ps, p.1.length = p.2.length)
    (hst : distNat st.2.1 st.2.2 = st.1) :
    ∃ st', ffnLoop ps st = some st' ∧ distNat st'.2.1 st'.2.2 = st'.1 ∧
      st'.1 = (ps.filter (fun p => p.1 ≠ p.2)).foldl
        (fun m p => max m (distNat p.1 p.2)) st.1 ∧
      (st' = st ∨ ((st'.2.1, st'.2.2) ∈ ps ∧ st'.2.1 ≠ st'.2.2)) := by
  induction ps generalizing st with
  | nil => exact ⟨st, rfl, hst, rfl, Or.inl rfl⟩
  | cons p rest ih =>
    obtain ⟨a, c⟩ := p
    by_cases hac : a = c
    · have hrest : ∀ q ∈ rest, q.1.length = q.2.length :=
        fun q hq => hlen q (List.mem_cons_of_mem _ hq)
      obtain ⟨st', h1, h2, h3, h4⟩ := ih st hrest hst
      refine ⟨st', ?_, h2, ?_, ?_⟩
      · simpa [ffnLoop, hac] using h1
      · rw [h3]
        congr 1
        simp [hac, List.filter_cons]
      · rcases h4 with h4 | ⟨hmem, hne⟩
        · exact Or.inl h4
        · exact Or.inr ⟨List.mem_cons_of_mem _ hmem, hne⟩
    · have hlac : (a, c).1.length = (a, c).2.length := hlen (a, c) (by simp)
      have hd : distance a c = some (distNat a c) := distance_eq_distNat hlac
      have hrest : ∀ q ∈ rest, q.1.length = q.2.length :=
        fun q hq => hlen q (List.mem_cons_of_mem _ hq)
      set st₁ := if st.1 < distNat a c then (distNat a c, a, c) else st with hst₁
      have hst₁inv : distNat st₁.2.1 st₁.2.2 = st₁.1 := by
        by_cases hlt : st.1 < distNat a c
        · simp [hst₁, hlt]
        · simpa [hst₁, hlt] using hst
      obtain ⟨st', h1, h2, h3, h4⟩ := ih st₁ hrest hst₁inv
      refine ⟨st', ?_, h2, ?_, ?_⟩
      · simp only [ffnLoop, hac, if_false, hd]
        exact h1
      · rw [h3]
        have hmax : st₁.1 = max st.1 (distNat a c) := by
          by_cases hlt : st.1 < distNat a c
          · simp [hst₁, hlt, Nat.max_eq_right (Nat.le_of_lt hlt)]
          · simp [hst₁, hlt, Nat.max_eq_left (Nat.le_of_not_lt hlt)]
        simp [List.filter_cons, hac, hmax]
      · rcases h4 with h4 | ⟨hmem, hne⟩
        · by_cases hlt : st.1 < distNat a c
          · refine Or.inr ⟨?_, ?_⟩
            · rw [h4]
              simp [hst₁, hlt]
            · rw [h4]
              simp only [hst₁, if_pos hlt]
              exact hac
          · refine Or.inl ?_
            rw [h4]
            simp [hst₁, hlt]
        · exact Or.inr ⟨List.mem_cons_of_mem _ hmem, hne⟩

theorem mem_ffnPairs {addrs : List Addr} {a c : Addr}
    (h : (a, c) ∈ ffnPairs addrs) : a ∈ addrs ∧ c ∈ addrs := by
  rw [ffnPairs, List.mem_flatMap] at h
  obtain ⟨x, hx, hmem⟩ := h
  rw [List.mem_map] at hmem
  obtain ⟨y, hy, hpair⟩ := hmem
  injection hpair with h1 h2
  exact ⟨h1 ▸ hx, h2 ▸ hy⟩

/-- C4 (amended): under equal address lengths, `findFarthestNodes` returns a
pair attaining the brute-force maximum pairwise XOR distance, and when that
maximum is positive the pair consists of two distinct snapshot addresses.
(The tie-break among maximal pairs follows the map iteration order, which Go
does not fix; see the counterexample.) -/
theorem findFarthestNodes_max (overlays : List (String × Addr)) (L : Nat)
    (hlen : ∀ p ∈ overlays, (p.2 : Addr).length = L) :
    ∃ pA pC, findFarthestNodes overlays = some (pA, pC) ∧
      distNat pA pC = bruteMaxDist (overlays.map (fun p => p.2)) ∧
      (bruteMaxDist (overlays.map (fun p => p.2)) ≠ 0 →
        pA ∈ overlays.map (fun p => p.2) ∧ pC ∈ overlays.map (fun p => p.2) ∧
          pA ≠ pC) := by
  set addrs := overlays.map (fun p => p.2) with haddrs
  have hpairs : ∀ p ∈ ffnPairs addrs, (p : Addr × Addr).1.length = p.2.length := by
    intro p hp
    obtain ⟨h1, h2⟩ := mem_ffnPairs (a := p.1) (c := p.2) (by simpa using hp)
    have hl1 : p.1.length = L := by
      rw [haddrs] at h1
      obtain ⟨q, hq, he⟩ := List.mem_map.mp h1
      rw [← he]
      exact hlen q hq
    have hl2 : p.2.length = L := by
      rw [haddrs] at h2
      obtain ⟨q, hq, he⟩ := List.mem_map.mp h2
      rw [← he]
      exact hlen q hq
    rw [hl1, hl2]
  have hinit : distNat (0, zeroAddr, zeroAddr).2.1 (0, zeroAddr, zeroAddr).2.2
      = (0, zeroAddr, zeroAddr).1 := by
    simp [distNat, zeroAddr, bytesToNat]
  obtain ⟨st', h1, h2, h3, h4⟩ := ffnLoop_spec (ffnPairs addrs) _ hpairs hinit
  refine ⟨st'.2.1, st'.2.2, ?_, ?_, ?_⟩
  · rw [findFarthestNodes, ← haddrs, h1]
    rfl
  · rw [h2, h3]
    rfl
  · intro hpos
    rcases h4 with h4 | ⟨hmem, hne⟩
    · exfalso
      apply hpos
      have hb : bruteMaxDist addrs = st'.1 := by
        rw [h3]
        rfl
      rw [hb, h4]
    · obtain ⟨hA, hC⟩ := mem_ffnPairs hmem
      exact ⟨hA, hC, hne⟩

/-- C4 witness: the amended theorem evaluated on a concrete two-node
snapshot of one-byte addresses. -/
theorem findFarthestNodes_max_witness :
    ∃ pA pC, findFarthestNodes [("a", [0]), ("b", [255])] = some (pA, pC) ∧
      distNat pA pC = bruteMaxDist ([("a", [0]), ("b", [255])].map (fun p => p.2)) ∧
      (bruteMaxDist ([("a", [0]), ("b", [255])].map (fun p => p.2)) ≠ 0 →
        pA ∈ [("a", [0]), ("b", [255])].map (fun p => p.2) ∧
          pC ∈ [("a", [0]), ("b", [255])].map (fun p => p.2) ∧ pA ≠ pC) :=
  findFarthestNodes_max [("a", [0]), ("b", [255])] 1 (by decide)

/-- C4 counterexample: the same snapshot presented in two map iteration
orders yields two different pairs, so the tie-break is not a function of the
snapshot alone — both orientations of the unique farthest pair tie at the
maximum and the one met first wins. -/
theorem findFarthestNodes_order_dependent :
    List.Perm [("a", ([0] : Addr)), ("b", [255])] [("b", [255]), ("a", [0])] ∧
    findFarthestNodes [("a", [0]), ("b", [255])] ≠
      findFarthestNodes [("b", [255]), ("a", [0])] := by
  constructor
  · exact List.Perm.swap _ _ _
  · decide

/-- C10: when every address in the overlay map is the same, the pair scan
never improves on the zero state, so `findFarthestNodes` returns the zero
address twice with no error; and the node-count precondition of `getNodes`
accepts any three-node group regardless of address distinctness. -/
theorem findFarthestNodes_degenerate (overlays : List (String × Addr))
    (a₀ : Addr) (hall : ∀ p ∈ overlays, (p : String × Addr).2 = a₀) :
    findFarthestNodes overlays = some (zeroAddr, zeroAddr) ∧
      getNodesSizeOk 3 = true := by
  constructor
  · have hpairs : ∀ p ∈ ffnPairs (overlays.map (fun p => p.2)),
        (p : Addr × Addr).1 = p.2 := by
      intro p hp
      obtain ⟨h1, h2⟩ := mem_ffnPairs (a := p.1) (c := p.2) (by simpa using hp)
      obtain ⟨q1, hq1, he1⟩ := List.mem_map.mp h1
      obtain ⟨q2, hq2, he2⟩ := List.mem_map.mp h2
      rw [← he1, ← he2, hall q1 hq1, hall q2 hq2]
    have hloop : ∀ ps (st : Nat × Addr × Addr),
        (∀ p ∈ ps, (p : Addr × Addr).1 = p.2) → ffnLoop ps st = some st := by
      intro ps
      induction ps with
      | nil => intro st _; rfl
      | cons p rest ih =>
        intro st hps
        obtain ⟨a, c⟩ := p
        have hac : a = c := hps (a, c) (by simp)
        simp only [ffnLoop, hac, if_true]
        exact ih st (fun q hq => hps q (List.mem_cons_of_mem _ hq))
    rw [findFarthestNodes, hloop _ _ hpairs]
    rfl
  · rfl

/-- C10 witness: a three-node group whose addresses coincide passes the
node-count precondition yet drives `findFarthestNodes` to the zero pair. -/
theorem findFarthestNodes_degenerate_witness :
    findFarthestNodes [("a", [7]), ("b", [7]), ("c", [7])] =
      some (zeroAddr, zeroAddr) ∧ getNodesSizeOk 3 = true :=
  findFarthestNodes_degenerate [("a", [7]), ("b", [7]), ("c", [7])] [7] (by decide)

/-! ### The presence poll on node B (chunk-repair `Run`, lines 105–125)

The loop keeps a counter that is incremented (after a 100ms sleep) only when
`HasChunk` returns an error, and restarts without counting when `HasChunk`
reports the chunk as absent.  It is embedded with an oracle for the outcome
of the k-th `HasChunk` call (`none` = transport error, `some b` = the chunk
is present iff `b`) and explicit fuel for the loop iterations. -/

/-- `maxIterations` from the chunk-repair check. -/
def maxIterations : Nat := 10

/-- Outcome of the poll: the chunk was seen, the fatal bound was hit, or the
loop was still running when the fuel ran out. -/
inductive PollOutcome
  | success
  | fatal
  | spinning
deriving DecidableEq

/-- The poll loop.  Returns the outcome together with the number of
`HasChunk` calls made and the number of those calls that errored. -/
def pollBLoop (resp : Nat → Option Bool) : Nat → Nat → Nat → PollOutcome × Nat × Nat
  | 0, _, _ => (.spinning, 0, 0)
  | fuel + 1, count, k =>
    if count > maxIterations then (.fatal, 0, 0)
    else
      match resp k with
      | none =>
        let r := pollBLoop resp fuel (count + 1) (k + 1)
        (r.1, r.2.1 + 1, r.2.2 + 1)
      | some true => (.success, 1, 0)
      | some false =>
        let r := pollBLoop resp fuel count (k + 1)
        (r.1, r.2.1 + 1, r.2.2)

/-- The poll as entered by `Run`: counter starts at zero. -/
def pollB (resp : Nat → Option Bool) (fuel : Nat) : PollOutcome × Nat × Nat :=
  pollBLoop resp fuel 0 0

set_option maxRecDepth 4000 in
/-- C1 counterexample: when every `HasChunk` call errors, the poll performs
11 attempts — not at most 10 — before `Run` returns the fatal error; and
when `HasChunk` keeps answering "absent" without error, the loop is still
spinning after arbitrarily many iterations (shown at two fuels), because
such attempts are not counted against the bound. -/
theorem pollB_counterexample :
    (pollB (fun _ => none) 50).1 = .fatal ∧
    (pollB (fun _ => none) 50).2.1 = 11 ∧
    (pollB (fun _ => some false) 200).1 = .spinning ∧
    (pollB (fun _ => some false) 500).1 = .spinning := by
  refine ⟨?_, ?_, ?_, ?_⟩ <;> decide

theorem pollBLoop_error_bound (resp : Nat → Option Bool) :
    ∀ fuel count k, count ≤ maxIterations + 1 →
      (pollBLoop resp fuel count k).2.2 + count ≤ maxIterations + 1 ∧
      ((pollBLoop resp fuel count k).1 = .fatal →
        (pollBLoop resp fuel count k).2.2 + count = maxIterations + 1) := by
  intro fuel
  induction fuel with
  | zero =>
    intro count k hcount
    simp only [pollBLoop]
    exact ⟨by omega, by intro h; cases h⟩
  | succ fuel ih =>
    intro count k hcount
    by_cases hgt : count > maxIterations
    · have hc : count = maxIterations + 1 := by omega
      simp only [pollBLoop, if_pos hgt]
      exact ⟨by omega, fun _ => by omega⟩
    · have hle : count + 1 ≤ maxIterations + 1 := by omega
      cases hresp : resp k with
      | none =>
        obtain ⟨hb, hf⟩ := ih (count + 1) (k + 1) hle
        simp only [pollBLoop, if_neg hgt, hresp]
        refine ⟨by omega, fun h => ?_⟩
        have := hf h
        omega
      | some b =>
        cases b with
        | true =>
          simp only [pollBLoop, if_neg hgt, hresp]
          exact ⟨by omega, by intro h; cases h⟩
        | false =>
          obtain ⟨hb, hf⟩ := ih count (k + 1) (by omega)
          simp only [pollBLoop, if_neg hgt, hresp]
          refine ⟨by omega, fun h => ?_⟩
          have := hf h
          omega

theorem pollBLoop_spin (fuel count k : Nat) (hcount : count ≤ maxIterations) :
    (pollBLoop (fun _ => some false) fuel count k).1 = .spinning := by
  induction fuel generalizing count k with
  | zero => rfl
  | succ fuel ih =>
    have hgt : ¬ count > maxIterations := by omega
    simp only [pollBLoop, if_neg hgt]
    exact ih count (k + 1) hcount

/-- C1 (amended): the poll on node B counts only erroring `HasChunk`
attempts, sleeping 100ms after each; it tolerates at most
`maxIterations + 1 = 11` such attempts, and when `Run` returns the fatal
"could not get chunk" error exactly 11 attempts have errored.  Attempts that
report the chunk as absent without error are not counted, so the loop does
not terminate while `HasChunk` keeps answering "absent". -/
theorem pollB_bound :
    (∀ resp fuel, (pollB resp fuel).2.2 ≤ maxIterations + 1 ∧
      ((pollB resp fuel).1 = .fatal →
        (pollB resp fuel).2.2 = maxIterations + 1)) ∧
    (∀ fuel, (pollB (fun _ => some false) fuel).1 = .spinning) := by
  constructor
  · intro resp fuel
    obtain ⟨hb, hf⟩ := pollBLoop_error_bound resp fuel 0 0 (by omega)
    refine ⟨by simpa [pollB] using hb, fun h => ?_⟩
    have := hf (by simpa [pollB] using h)
    simpa [pollB] using this
  · intro fuel
    exact pollBLoop_spin fuel 0 0 (by omega)

/-- C1 witness: the fatal clause of the amended bound evaluated at the
all-error oracle. -/
theorem pollB_bound_witness :
    (pollB (fun _ => none) 50).2.2 = maxIterations + 1 :=
  (pollB_bound.1 (fun _ => none) 50).2 (by decide)

/-! ### The trigger-recovery branch (chunk-repair `Run`, lines 144–149)

The download from node C that is meant to trigger recovery is fatal exactly
when it errors with anything but the one expected transient message. -/

/-- The expected transient message built by `Run` for a chunk address. -/
def expectedRetryMsg (chunkAddr : String) : String :=
  "download chunk " ++ chunkAddr ++ ": try again later"

/-- Outcome of the trigger-recovery branch. -/
inductive TriggerOutcome
  | fatal (e : String)
  | proceed
deriving DecidableEq

/-- Lines 144–149 of `Run`: `downloadErr` is the error of the download from
node C (`none` on success). -/
def triggerRecovery (downloadErr : Option String) (chunkAddr : String) :
    TriggerOutcome :=
  match downloadErr with
  | none => .proceed
  | some m =>
    if m ≠ expectedRetryMsg chunkAddr then
      .fatal ("chunk recovery not triggered: " ++ m)
    else .proceed

/-- C6: the trigger-recovery download is fatal (wrapped as "chunk recovery
not triggered") exactly when it errors with a message other than the single
expected transient message for the chunk address; success or that one error
lets the iteration proceed. -/
theorem triggerRecovery_spec (downloadErr : Option String) (chunkAddr : String) :
    ((∃ e, triggerRecovery downloadErr chunkAddr = .fatal e) ↔
      (∃ m, downloadErr = some m ∧ m ≠ expectedRetryMsg chunkAddr)) ∧
    triggerRecovery none chunkAddr = .proceed ∧
    triggerRecovery (some (expectedRetryMsg chunkAddr)) chunkAddr = .proceed ∧
    (∀ m, m ≠ expectedRetryMsg chunkAddr →
      triggerRecovery (some m) chunkAddr =
        .fatal ("chunk recovery not triggered: " ++ m)) := by
  refine ⟨?_, rfl, by simp [triggerRecovery], fun m hm => by simp [triggerRecovery, hm]⟩
  constructor
  · rintro ⟨e, he⟩
    cases downloadErr with
    | none => simp [triggerRecovery] at he
    | some m =>
      by_cases hm : m = expectedRetryMsg chunkAddr
      · simp [triggerRecovery, hm] at he
      · exact ⟨m, rfl, hm⟩
  · rintro ⟨m, rfl, hm⟩
    exact ⟨"chunk recovery not triggered: " ++ m, by simp [triggerRecovery, hm]⟩

/-- C6 witness: the fatal direction of the characterisation at a concrete
unexpected error message. -/
theorem triggerRecovery_spec_witness :
    ∃ e, triggerRecovery (some "boom") "addr" = TriggerOutcome.fatal e :=
  (triggerRecovery_spec (some "boom") "addr").1.mpr ⟨"boom", rfl, by decide⟩

/-! ### Deletion before re-upload (chunk-repair `Run`, lines 139–156)

`deleteChunkFromAllNodes` removes the chunk from every node of the group in
iteration order, stopping at the first failure; `Run` re-uploads and pins the
chunk on node A only after the deletion (and the trigger-recovery branch)
succeeded.  The segment is embedded as a trace of the external calls made. -/

/-- External calls observable in the delete/re-upload segment. -/
inductive REvent
  | removeChunk (node : String)
  | reupload
deriving DecidableEq

/-- `deleteChunkFromAllNodes`: invoke `RemoveChunk` on each node in order,
returning at the first failure.  Returns the trace of calls made and the
error, if any. -/
def deleteChunkFromAllNodes (nodes : List String)
    (removeRes : String → Option String) : List REvent × Option String :=
  match nodes with
  | [] => ([], none)
  | n :: rest =>
    match removeRes n with
    | some e => ([.removeChunk n], some e)
    | none =>
      let r := deleteChunkFromAllNodes rest removeRes
      (.removeChunk n :: r.1, r.2)

/-- Lines 139–156 of `Run`: delete from all nodes, propagate a failure;
otherwise run the trigger-recovery branch, propagate a fatal outcome;
otherwise re-upload and pin on node A (whose own error is propagated). -/
def recoverySegment (nodes : List String) (removeRes : String → Option String)
    (downloadErr : Option String) (chunkAddr : String)
    (uploadErr : Option String) : List REvent × Option String :=
  let d := deleteChunkFromAllNodes nodes removeRes
  match d.2 with
  | some e => (d.1, some e)
  | none =>
    match triggerRecovery downloadErr chunkAddr with
    | .fatal e => (d.1, some e)
    | .proceed => (d.1 ++ [.reupload], uploadErr)

theorem deleteChunkFromAllNodes_ok (nodes : List String)
    (removeRes : String → Option String)
    (h : ∀ n ∈ nodes, removeRes n = none) :
    deleteChunkFromAllNodes nodes removeRes =
      (nodes.map REvent.removeChunk, none) := by
  induction nodes with
  | nil => rfl
  | cons n rest ih =>
    have hn : removeRes n = none := h n (by simp)
    simp only [deleteChunkFromAllNodes, hn, List.map_cons]
    rw [ih (fun m hm => h m (List.mem_cons_of_mem _ hm))]

theorem deleteChunkFromAllNodes_no_reupload (nodes : List String)
    (removeRes : String → Option String) :
    REvent.reupload ∉ (deleteChunkFromAllNodes nodes removeRes).1 := by
  induction nodes with
  | nil => simp [deleteChunkFromAllNodes]
  | cons n rest ih =>
    cases hn : removeRes n with
    | some e => simp [deleteChunkFromAllNodes, hn]
    | none => simp [deleteChunkFromAllNodes, hn, ih]

theorem deleteChunkFromAllNodes_fail (nodes : List String)
    (removeRes : String → Option String)
    (h : ∃ n ∈ nodes, removeRes n ≠ none) :
    ∃ n ∈ nodes, ∃ e, removeRes n = some e ∧
      (deleteChunkFromAllNodes nodes removeRes).2 = some e := by
  induction nodes with
  | nil => simp at h
  | cons m rest ih =>
    cases hm : removeRes m with
    | some e =>
      exact ⟨m, by simp, e, hm, by simp [deleteChunkFromAllNodes, hm]⟩
    | none =>
      obtain ⟨n, hn, hne⟩ := h
      rcases List.mem_cons.mp hn with rfl | hn'
      · exact absurd hm hne
      · obtain ⟨n', hn'', e, he, hres⟩ := ih ⟨n, hn', hne⟩
        exact ⟨n', List.mem_cons_of_mem _ hn'', e, he,
          by simpa [deleteChunkFromAllNodes, hm] using hres⟩

/-- C7: in a RecoveryCheck iteration, the re-upload-and-pin on node A occurs
only when `RemoveChunk` was invoked on — and succeeded for — every node of
the group, all removal calls preceding the re-upload in the trace; and when
any removal fails, the iteration's result is a removal error and the
re-upload never happens. -/
theorem recoverySegment_spec (nodes : List String)
    (removeRes : String → Option String) (downloadErr : Option String)
    (chunkAddr : String) (uploadErr : Option String) :
    (REvent.reupload ∈ (recoverySegment nodes removeRes downloadErr chunkAddr uploadErr).1 →
      (∀ n ∈ nodes, removeRes n = none) ∧
      (recoverySegment nodes removeRes downloadErr chunkAddr uploadErr).1 =
        nodes.map REvent.removeChunk ++ [.reupload]) ∧
    ((∃ n ∈ nodes, removeRes n ≠ none) →
      REvent.reupload ∉ (recoverySegment nodes removeRes downloadErr chunkAddr uploadErr).1 ∧
      ∃ n ∈ nodes, ∃ e, removeRes n = some e ∧
        (recoverySegment nodes removeRes downloadErr chunkAddr uploadErr).2 = some e) := by
  constructor
  · intro hre
    by_cases hall : ∀ n ∈ nodes, removeRes n = none
    · refine ⟨hall, ?_⟩
      rw [recoverySegment] at hre ⊢
      rw [deleteChunkFromAllNodes_ok nodes removeRes hall] at hre ⊢
      cases htr : triggerRecovery downloadErr chunkAddr with
      | fatal e =>
        simp only [htr] at hre
        exact absurd hre (by
          intro hmem
          have := List.mem_map.mp hmem
          obtain ⟨x, _, hx⟩ := this
          cases hx)
      | proceed => simp [htr]
    · exfalso
      push_neg at hall
      obtain ⟨n, hn, hne⟩ := hall
      obtain ⟨n', hn', e, he, hres⟩ :=
        deleteChunkFromAllNodes_fail nodes removeRes ⟨n, hn, hne⟩
      rw [recoverySegment] at hre
      simp only [hres] at hre
      exact deleteChunkFromAllNodes_no_reupload nodes removeRes hre
  · intro hfail
    obtain ⟨n, hn, e, he, hres⟩ :=
      deleteChunkFromAllNodes_fail nodes removeRes hfail
    constructor
    · rw [recoverySegment]
      simp only [hres]
      exact deleteChunkFromAllNodes_no_reupload nodes removeRes
    · refine ⟨n, hn, e, he, ?_⟩
      rw [recoverySegment]
      simp only [hres]

/-- C7 witness: with two nodes whose removals succeed and a successful
trigger download, the re-upload occurs and the theorem yields the full trace
shape; the removal-failure clause is vacuously dischargeable there, so the
success clause is instantiated. -/
theorem recoverySegment_spec_witness :
    (∀ n ∈ ["n1", "n2"], (fun _ => (none : Option String)) n = none) ∧
    (recoverySegment ["n1", "n2"] (fun _ => none) none "ad" none).1 =
      ["n1", "n2"].map REvent.removeChunk ++ [.reupload] :=
  (recoverySegment_spec ["n1", "n2"] (fun _ => none) none "ad" none).1 (by decide)

/-! ### Seeded generators and the permutation draw

`random.PseudoGenerator(s)` is declared outside the embedded sources, so the
generators are modelled from the specification (§4.3 SeededStreams): each is
identified by `(seed, stream index)` plus its position, and its outputs are a
fixed deterministic function of those.  `rnd.Perm` is the Go standard
library's inside-out Fisher–Yates shuffle, embedded verbatim. -/

/-- Modelled from the spec: a seeded pseudorandom generator (§4.3), a pure
function of its seed, stream index, and position. -/
structure Rng where
  seed : Int
  idx : Nat
  ctr : Nat
deriving DecidableEq

/-- Modelled from the spec: `random.PseudoGenerator(seed)`. -/
def pseudoGenerator (seed : Int) : Rng := ⟨seed, 0, 0⟩

/-- Modelled from the spec: `random.PseudoGenerators(seed, n)` derives `n`
independent generators, each reproducible from `(seed, index)` alone. -/
def pseudoGenerators (seed : Int) (n : Nat) : List Rng :=
  (List.range n).map (fun i => ⟨seed, i, 0⟩)

/-- One output of a generator: a deterministic mix of seed, stream index and
position. -/
def Rng.next (r : Rng) : Nat × Rng :=
  ((r.seed.natAbs + r.idx * 1000003 + r.ctr * 754974721 + 12345) % 2147483647,
    ⟨r.seed, r.idx, r.ctr + 1⟩)

/-- `Intn`: a draw reduced below the bound. -/
def Rng.intn (r : Rng) (n : Nat) : Nat × Rng :=
  let v := r.next
  (v.1 % n, v.2)

/-- One assignment step of the inside-out shuffle:
`m[i] = m[j]; m[j] = i`. -/
def permStep (m : List Nat) (i j : Nat) : List Nat :=
  (m.set i (m.getD j 0)).set j i

/-- The loop of Go's `rand.Perm`: for `i := 1; i < n; i++`, draw
`j := Intn(i+1)` and swap as above. -/
def randPermLoop : Rng → List Nat → Nat → Nat → List Nat × Rng
  | r, m, _, 0 => (m, r)
  | r, m, i, steps + 1 =>
    let jv := r.intn (i + 1)
    randPermLoop jv.2 (permStep m i jv.1) (i + 1) steps

/-- Go's `rand.Perm n`: start from the all-zero slice and run the loop. -/
def Rng.perm (r : Rng) (n : Nat) : List Nat × Rng :=
  randPermLoop r (List.replicate n 0) 1 (n - 1)

/-- Invariant of the inside-out shuffle: the processed prefix is duplicate
free and bounded by the loop index. -/
def PermInv (m : List Nat) (n i : Nat) : Prop :=
  m.length = n ∧ i ≤ n ∧ (m.take i).Nodup ∧ ∀ x ∈ m.take i, x < i

theorem nodup_set_of_not_mem {a : Nat} :
    ∀ (l : List Nat) (j : Nat), a ∉ l → l.Nodup → (l.set j a).Nodup := by
  intro l
  induction l with
  | nil => intro j _ _; simp
  | cons b t ih =>
    intro j ha hnd
    cases j with
    | zero =>
      simp only [List.set_cons_zero, List.nodup_cons]
      exact ⟨fun hmem => ha (List.mem_cons_of_mem _ hmem),
        (List.nodup_cons.mp hnd).2⟩
    | succ j =>
      simp only [List.set_cons_succ, List.nodup_cons]
      obtain ⟨hb, ht⟩ := List.nodup_cons.mp hnd
      refine ⟨fun hmem => ?_, ih j (fun h => ha (List.mem_cons_of_mem _ h)) ht⟩
      rcases List.mem_or_eq_of_mem_set hmem with h | h
      · exact hb h
      · exact ha (h ▸ List.mem_cons_self b t)

theorem getElem_not_mem_set {l : List Nat} {j : Nat} {a : Nat}
    (hj : j < l.length) (hnd : l.Nodup) (hne : l[j] ≠ a) :
    l[j] ∉ l.set j a := by
  intro hmem
  obtain ⟨p, hp, hpe⟩ := List.getElem_of_mem hmem
  rw [List.length_set] at hp
  by_cases hpj : p = j
  · subst hpj
    rw [List.getElem_set_self] at hpe
    exact hne hpe.symm
  · rw [List.getElem_set_ne (fun h => hpj h.symm)] at hpe
    exact hpj ((hnd.getElem_inj_iff).mp hpe)

theorem take_succ_set_outer {m : List Nat} {i : Nat} (hi : i < m.length)
    (v : Nat) : (m.set i v).take (i + 1) = m.take i ++ [v] := by
  have hlen : (m.take i).length = i := by
    rw [List.length_take]
    omega
  rw [List.set_take, List.take_succ, List.getElem?_eq_getElem hi]
  rw [List.set_append_right _ _ hlen.le]
  rw [hlen, Nat.sub_self]
  rfl

theorem permStep_inv {m : List Nat} {n i j : Nat} (hinv : PermInv m n i)
    (hi : i < n) (hj : j ≤ i) : PermInv (permStep m i j) n (i + 1) := by
  obtain ⟨hlen, hile, hnd, hbound⟩ := hinv
  have him : i < m.length := by omega
  have hlt : ∀ x ∈ m.take i, x < i := hbound
  have hinotmem : i ∉ m.take i := fun h => absurd (hlt i h) (by omega)
  by_cases hji : j = i
  · subst hji
    have hstep : permStep m j j = m.set j j := by
      rw [permStep, List.set_set]
    rw [PermInv, hstep]
    refine ⟨by simp [hlen], by omega, ?_, ?_⟩
    · rw [take_succ_set_outer him]
      rw [List.nodup_append]
      exact ⟨hnd, List.nodup_singleton _, by
        intro x hx hx'
        rw [List.mem_singleton] at hx'
        exact hinotmem (hx' ▸ hx)⟩
    · rw [take_succ_set_outer him]
      intro x hx
      rcases List.mem_append.mp hx with h | h
      · exact Nat.lt_succ_of_lt (hlt x h)
      · rw [List.mem_singleton] at h
        omega
  · have hjlt : j < i := by omega
    have hjm : j < m.length := by omega
    have hv : m.getD j 0 = m[j] := by
      rw [List.getD_eq_getElem?_getD, List.getElem?_eq_getElem hjm]
      rfl
    have htake : (permStep m i j).take (i + 1) = (m.take i).set j i ++ [m[j]] := by
      rw [permStep, hv, List.set_take, take_succ_set_outer him,
        List.set_append_left]
      simp [List.length_take, hjlt, Nat.min_eq_left (Nat.le_of_lt him)]
    have hmem_j : m[j] ∈ m.take i := by
      rw [List.mem_iff_getElem]
      refine ⟨j, by simp [List.length_take]; omega, ?_⟩
      rw [List.getElem_take]
    have hjval : m[j] < i := hlt _ hmem_j
    have hl : (m.take i).length = i := by
      simp [List.length_take]
      omega
    have hjt : j < (m.take i).length := by omega
    have htj : (m.take i)[j] = m[j] := List.getElem_take ..
    rw [PermInv]
    refine ⟨by simp [permStep, hlen], by omega, ?_, ?_⟩
    · rw [htake, List.nodup_append]
      refine ⟨nodup_set_of_not_mem _ _ hinotmem hnd, List.nodup_singleton _, ?_⟩
      intro x hx hx'
      rw [List.mem_singleton] at hx'
      subst hx'
      have : (m.take i)[j] ∉ (m.take i).set j i := by
        apply getElem_not_mem_set hjt hnd
        rw [htj]
        omega
      rw [htj] at this
      exact this hx
    · rw [htake]
      intro x hx
      rcases List.mem_append.mp hx with h | h
      · rcases List.mem_or_eq_of_mem_set h with h' | h'
        · exact Nat.lt_succ_of_lt (hlt x h')
        · omega
      · rw [List.mem_singleton] at h
        omega

theorem randPermLoop_inv (n : Nat) :
    ∀ steps r m i, PermInv m n i → i + steps = n →
      PermInv (randPermLoop r m i steps).1 n n := by
  intro steps
  induction steps with
  | zero =>
    intro r m i hinv hsum
    have : i = n := by omega
    subst this
    exact hinv
  | succ steps ih =>
    intro r m i hinv hsum
    have hi : i < n := by omega
    have hj : (r.intn (i + 1)).1 ≤ i := by
      have : (r.intn (i + 1)).1 < i + 1 := by
        rw [Rng.intn]
        exact Nat.mod_lt _ (by omega)
      omega
    rw [randPermLoop]
    exact ih _ _ (i + 1) (permStep_inv hinv hi hj) (by omega)

theorem rngPerm_nodup (r : Rng) (n : Nat) (hn : 1 ≤ n) :
    (r.perm n).1.Nodup ∧ (r.perm n).1.length = n := by
  have hinv : PermInv (List.replicate n 0) n 1 := by
    refine ⟨by simp, by omega, ?_, ?_⟩
    · cases n with
      | zero => omega
      | succ k => simp [List.take_replicate, List.replicate_succ]
    · intro x hx
      have := List.eq_of_mem_replicate (List.mem_of_mem_take hx)
      omega
  have := randPermLoop_inv n (n - 1) r (List.replicate n 0) 1 hinv (by omega)
  obtain ⟨hlen, _, hnd, _⟩ := this
  rw [Rng.perm]
  constructor
  · rw [← List.take_length (l := (randPermLoop r (List.replicate n 0) 1 (n - 1)).1)]
    rw [hlen]
    exact hnd
  · exact hlen

/-- The role-selection step of a RoundTripCheck iteration (smoke.go lines
106–113): draw a permutation of the node indices; the first two entries are
the uploader and downloader indices. -/
def smokeSelectPair (r : Rng) (n : Nat) : (Nat × Nat) × Rng :=
  let p := r.perm n
  ((p.1.getD 0 0, p.1.getD 1 0), p.2)

/-- The guard of the restart branch in smoke.go line 111: taken exactly when
uploader and downloader coincide. -/
def smokeTieBranch (r : Rng) (n : Nat) : Bool :=
  (smokeSelectPair r n).1.1 == (smokeSelectPair r n).1.2

/-- C9: with at least two nodes, the first two entries of the permutation
are always distinct, so the restart branch taken when uploader = downloader
is never taken. -/
theorem smokeTieBranch_unreachable (r : Rng) (n : Nat) (hn : 2 ≤ n) :
    smokeTieBranch r n = false := by
  obtain ⟨hnd, hlen⟩ := rngPerm_nodup r n (by omega)
  have h0 : 0 < (r.perm n).1.length := by omega
  have h1 : 1 < (r.perm n).1.length := by omega
  have hg0 : (r.perm n).1.getD 0 0 = (r.perm n).1[0] := by
    rw [List.getD_eq_getElem?_getD, List.getElem?_eq_getElem h0]
    rfl
  have hg1 : (r.perm n).1.getD 1 0 = (r.perm n).1[1] := by
    rw [List.getD_eq_getElem?_getD, List.getElem?_eq_getElem h1]
    rfl
  have hne : (r.perm n).1[0] ≠ (r.perm n).1[1] := by
    intro h
    have := (hnd.getElem_inj_iff).mp h
    omega
  rw [smokeTieBranch, smokeSelectPair]
  simp only [beq_eq_false_iff_ne, ne_eq]
  rw [hg0, hg1]
  exact hne

/-- C9 witness: the restart branch is not taken at a concrete seed and a
three-node cluster. -/
theorem smokeTieBranch_unreachable_witness :
    smokeTieBranch (pseudoGenerator 0) 3 = false :=
  smokeTieBranch_unreachable (pseudoGenerator 0) 3 (by omega)

/-! ### Determinism of content and role selection (C2)

In smoke.go the uploader/downloader indices come from the seeded generator
(`rnd.Perm`), but the payload is filled by `crypto/rand.Read` — an ambient
entropy source independent of the seed, embedded as an oracle argument.
The chunk-repair check draws its chunks from the seeded generators only. -/

/-- Draw `k` payload bytes from a seeded generator. -/
def drawBytes (r : Rng) : Nat → List Nat × Rng
  | 0 => ([], r)
  | k + 1 =>
    let v := r.next
    let rest := drawBytes v.2 k
    (v.1 % 256 :: rest.1, rest.2)

/-- Modelled from the spec: `bee.NewRandomChunk` (not under src) generates a
chunk whose payload bytes are drawn from the given seeded stream. -/
def newRandomChunk (r : Rng) : List Nat × Rng := drawBytes r 32

/-- The chunk generated for iteration `i` of the chunk-repair `Run`, which
uses `rnds[i]` from `random.PseudoGenerators(seed, n)`. -/
def recoveryChunkAt (seed : Int) (n i : Nat) : List Nat :=
  (newRandomChunk ((pseudoGenerators seed n).getD i (pseudoGenerator 0))).1

/-- Result of one RoundTripCheck draw. -/
structure SmokeDraw where
  txName : String
  rxName : String
  txData : List Nat
  restart : Bool
deriving DecidableEq

/-- Lines 106–134 of smoke.go: the roles come from the seeded permutation;
when they coincide the iteration restarts; the payload bytes come from the
`crypto/rand` entropy oracle, one byte per index. -/
def smokeDraw (rng : Rng) (entropy : Nat → Nat) (n : Nat)
    (names : List String) (contentSize : Nat) : SmokeDraw × Rng :=
  let pr := rng.perm n
  let txIdx := pr.1.getD 0 0
  let rxIdx := pr.1.getD 1 0
  if txIdx = rxIdx then (⟨"", "", [], true⟩, pr.2)
  else
    (⟨names.getD txIdx "", names.getD rxIdx "",
      (List.range contentSize).map (fun k => entropy k % 256), false⟩, pr.2)

/-- C2 counterexample: two runs with the same seed, snapshot and node list
but different ambient entropy agree on the uploader/downloader choice yet
produce different payload bytes — the RoundTripCheck payload is not a
function of the seed and the snapshot. -/
theorem smokeDraw_entropy_dependent :
    (smokeDraw (pseudoGenerator 7) (fun _ => 0) 3 ["a", "b", "c"] 4).1.txName =
      (smokeDraw (pseudoGenerator 7) (fun _ => 1) 3 ["a", "b", "c"] 4).1.txName ∧
    (smokeDraw (pseudoGenerator 7) (fun _ => 0) 3 ["a", "b", "c"] 4).1.rxName =
      (smokeDraw (pseudoGenerator 7) (fun _ => 1) 3 ["a", "b", "c"] 4).1.rxName ∧
    (smokeDraw (pseudoGenerator 7) (fun _ => 0) 3 ["a", "b", "c"] 4).1.txData ≠
      (smokeDraw (pseudoGenerator 7) (fun _ => 1) 3 ["a", "b", "c"] 4).1.txData := by
  refine ⟨?_, ?_, ?_⟩ <;> decide

theorem pseudoGenerators_getD (seed : Int) (n i : Nat) (hi : i < n) :
    (pseudoGenerators seed n).getD i (pseudoGenerator 0) = ⟨seed, i, 0⟩ := by
  have hlen : i < (pseudoGenerators seed n).length := by
    simp [pseudoGenerators, hi]
  rw [List.getD_eq_getElem?_getD, List.getElem?_eq_getElem hlen]
  simp [pseudoGenerators]

/-- C2 (amended): the uploader/downloader selection sequence is a function
of the seeded generator and the cluster only — it is unchanged under any
change of the ambient entropy source — and the chunk generated for
iteration `i` of RecoveryCheck is a function of the seed and `i` alone; but
the RoundTripCheck payload bytes come from `crypto/rand` and are not
determined by the seed and snapshot (see the counterexample). -/
theorem smoke_roles_and_recovery_chunks_deterministic :
    (∀ rng n names size e₁ e₂,
      (smokeDraw rng e₁ n names size).1.txName =
          (smokeDraw rng e₂ n names size).1.txName ∧
      (smokeDraw rng e₁ n names size).1.rxName =
          (smokeDraw rng e₂ n names size).1.rxName ∧
      (smokeDraw rng e₁ n names size).1.restart =
          (smokeDraw rng e₂ n names size).1.restart ∧
      (smokeDraw rng e₁ n names size).2 = (smokeDraw rng e₂ n names size).2) ∧
    (∀ seed n m i, i < n → i < m →
      recoveryChunkAt seed n i = recoveryChunkAt seed m i) := by
  constructor
  · intro rng n names size e₁ e₂
    by_cases h : (rng.perm n).1.getD 0 0 = (rng.perm n).1.getD 1 0
    · simp only [smokeDraw, if_pos h]
      exact ⟨trivial, trivial, trivial, trivial⟩
    · simp only [smokeDraw, if_neg h]
      exact ⟨trivial, trivial, trivial, trivial⟩
  · intro seed n m i hn hm
    rw [recoveryChunkAt, recoveryChunkAt, pseudoGenerators_getD seed n i hn,
      pseudoGenerators_getD seed m i hm]

/-- C2 witness: the role-independence clause at a concrete seed, and the
chunk clause at concrete stream counts. -/
theorem smoke_roles_deterministic_witness :
    recoveryChunkAt 5 1 0 = recoveryChunkAt 5 2 0 :=
  smoke_roles_and_recovery_chunks_deterministic.2 5 1 2 0 (by omega) (by omega)

/-! ### Cancellation in the RoundTripCheck loop (smoke.go `Run`)

The run is an unbounded loop; the only `return` statements inside it are the
`return nil` arms of the three cancellation checks: the `select` at the top
of each iteration, the one inside the upload retry loop, and the one inside
the download retry loop.  Checks are indexed by a global counter `t`; the
oracles (`cancel`, upload success, download result) are functions of that
counter.  The `select` of the download loop is modelled as checking the
cancellation signal first: its other arm only fires after the fixed
`RxOnErrWait` timer. -/

/-- The upload retry loop (`for retries := 3; txDuration == 0 && retries > 0`):
each pass checks the cancellation signal and, if it has not fired, makes one
upload attempt.  `Sum.inl ()` is the `return nil` on cancellation; otherwise
the loop ends with the success flag and the advanced check counter. -/
def upLoop (cancel upOk : Nat → Bool) : Nat → Bool → Nat → Sum Unit (Bool × Nat)
  | 0, got, t => Sum.inr (got, t)
  | retries + 1, got, t =>
    if got then Sum.inr (got, t)
    else if cancel t then Sum.inl ()
    else upLoop cancel upOk retries (upOk t) (t + 1)

/-- The download retry loop (`for retries := 3; rxDuration == 0 && retries > 0`):
each pass checks the cancellation signal; a download error continues the
loop, while any completed download (matching or not) ends it. -/
def downLoop (cancel : Nat → Bool) (dl : Nat → Option Bool) :
    Nat → Bool → Nat → Sum Unit Nat
  | 0, _, t => Sum.inr t
  | retries + 1, got, t =>
    if got then Sum.inr t
    else if cancel t then Sum.inl ()
    else
      match dl t with
      | none => downLoop cancel dl retries false (t + 1)
      | some _ => downLoop cancel dl retries true (t + 1)

/-- One iteration of smoke.go `Run`: cancellation check at the top, role
draw, restart on a colliding pair, upload retries, propagation wait, download
retries.  `Sum.inl ()` is the clean `return nil`. -/
def smokeIter (cancel upOk : Nat → Bool) (dl : Nat → Option Bool) (n : Nat)
    (rng : Rng) (t : Nat) : Sum Unit (Rng × Nat) :=
  if cancel t then Sum.inl ()
  else
    let pr := rng.perm n
    if pr.1.getD 0 0 = pr.1.getD 1 0 then Sum.inr (pr.2, t + 1)
    else
      match upLoop cancel upOk 3 false (t + 1) with
      | Sum.inl () => Sum.inl ()
      | Sum.inr (false, t') => Sum.inr (pr.2, t')
      | Sum.inr (true, t') =>
        match downLoop cancel dl 3 false t' with
        | Sum.inl () => Sum.inl ()
        | Sum.inr t'' => Sum.inr (pr.2, t'')

/-- Outcome of the whole run within the given iteration fuel. -/
inductive RunOutcome
  | cleanNil
  | fuelOut
deriving DecidableEq

/-- The `for i := 0; true; i++` loop of smoke.go `Run`. -/
def smokeRun (cancel upOk : Nat → Bool) (dl : Nat → Option Bool) (n : Nat) :
    Nat → Rng → Nat → RunOutcome
  | 0, _, _ => .fuelOut
  | fuel + 1, rng, t =>
    match smokeIter cancel upOk dl n rng t with
    | Sum.inl () => .cleanNil
    | Sum.inr (rng', t') => smokeRun cancel upOk dl n fuel rng' t'

theorem upLoop_le {cancel upOk : Nat → Bool} :
    ∀ {retries got t b t'}, upLoop cancel upOk retries got t = Sum.inr (b, t') →
      t ≤ t' := by
  intro retries
  induction retries with
  | zero =>
    intro got t b t' h
    injection h with h
    injection h with _ h
    omega
  | succ r ih =>
    intro got t b t' h
    rw [upLoop] at h
    by_cases hg : got
    · rw [if_pos hg] at h
      injection h with h
      injection h with _ h
      omega
    · rw [if_neg hg] at h
      by_cases hc : cancel t
      · rw [if_pos hc] at h
        cases h
      · rw [if_neg hc] at h
        have := ih h
        omega

theorem upLoop_stays_below {cancel upOk : Nat → Bool} {k : Nat}
    (hk : ∀ s, k ≤ s → cancel s = true) :
    ∀ {retries got t b t'}, t ≤ k →
      upLoop cancel upOk retries got t = Sum.inr (b, t') → t' ≤ k := by
  intro retries
  induction retries with
  | zero =>
    intro got t b t' ht h
    injection h with h
    injection h with _ h
    omega
  | succ r ih =>
    intro got t b t' ht h
    rw [upLoop] at h
    by_cases hg : got
    · rw [if_pos hg] at h
      injection h with h
      injection h with _ h
      omega
    · rw [if_neg hg] at h
      by_cases hc : cancel t
      · rw [if_pos hc] at h
        cases h
      · rw [if_neg hc] at h
        have htk : t < k := by
          by_contra hge
          exact hc (hk t (by omega))
        exact ih (by omega) h

theorem downLoop_le {cancel : Nat → Bool} {dl : Nat → Option Bool} :
    ∀ {retries got t t'}, downLoop cancel dl retries got t = Sum.inr t' →
      t ≤ t' := by
  intro retries
  induction retries with
  | zero =>
    intro got t t' h
    injection h with h
    omega
  | succ r ih =>
    intro got t t' h
    rw [downLoop] at h
    by_cases hg : got
    · rw [if_pos hg] at h
      injection h with h
      omega
    · rw [if_neg hg] at h
      by_cases hc : cancel t
      · rw [if_pos hc] at h
        cases h
      · rw [if_neg hc] at h
        cases hdl : dl t with
        | none =>
          rw [hdl] at h
          have := ih h
          omega
        | some b =>
          rw [hdl] at h
          have := ih h
          omega

theorem downLoop_stays_below {cancel : Nat → Bool} {dl : Nat → Option Bool}
    {k : Nat} (hk : ∀ s, k ≤ s → cancel s = true) :
    ∀ {retries got t t'}, t ≤ k →
      downLoop cancel dl retries got t = Sum.inr t' → t' ≤ k := by
  intro retries
  induction retries with
  | zero =>
    intro got t t' ht h
    injection h with h
    omega
  | succ r ih =>
    intro got t t' ht h
    rw [downLoop] at h
    by_cases hg : got
    · rw [if_pos hg] at h
      injection h with h
      omega
    · rw [if_neg hg] at h
      by_cases hc : cancel t
      · rw [if_pos hc] at h
        cases h
      · rw [if_neg hc] at h
        have htk : t < k := by
          by_contra hge
          exact hc (hk t (by omega))
        cases hdl : dl t with
        | none =>
          rw [hdl] at h
          exact ih (by omega) h
        | some b =>
          rw [hdl] at h
          exact ih (by omega) h

theorem smokeIter_advances {cancel upOk : Nat → Bool} {dl : Nat → Option Bool}
    {n : Nat} {rng : Rng} {t : Nat} {rng' : Rng} {t' : Nat}
    (h : smokeIter cancel upOk dl n rng t = Sum.inr (rng', t')) : t < t' := by
  rw [smokeIter] at h
  by_cases hc : cancel t
  · rw [if_pos hc] at h
    cases h
  · rw [if_neg hc] at h
    by_cases hp : (rng.perm n).1.getD 0 0 = (rng.perm n).1.getD 1 0
    · rw [if_pos hp] at h
      injection h with h
      injection h with _ h
      omega
    · rw [if_neg hp] at h
      split at h
      next hup => cases h
      next t₁ hup =>
        have ht₁ : t + 1 ≤ t₁ := upLoop_le hup
        injection h with h
        injection h with _ h
        omega
      next t₁ hup =>
        have ht₁ : t + 1 ≤ t₁ := upLoop_le hup
        split at h
        next hdn => cases h
        next t₂ hdn =>
          have ht₂ : t₁ ≤ t₂ := downLoop_le hdn
          injection h with h
          injection h with _ h
          omega

theorem smokeIter_stays_below {cancel upOk : Nat → Bool}
    {dl : Nat → Option Bool} {n k : Nat} {rng : Rng} {t : Nat} {rng' : Rng}
    {t' : Nat} (hk : ∀ s, k ≤ s → cancel s = true) (ht : t ≤ k)
    (h : smokeIter cancel upOk dl n rng t = Sum.inr (rng', t')) : t' ≤ k := by
  rw [smokeIter] at h
  by_cases hc : cancel t
  · rw [if_pos hc] at h
    cases h
  · rw [if_neg hc] at h
    have htk : t < k := by
      by_contra hge
      exact hc (hk t (by omega))
    by_cases hp : (rng.perm n).1.getD 0 0 = (rng.perm n).1.getD 1 0
    · rw [if_pos hp] at h
      injection h with h
      injection h with _ h
      omega
    · rw [if_neg hp] at h
      split at h
      next hup => cases h
      next t₁ hup =>
        have ht₁ : t₁ ≤ k := upLoop_stays_below hk (by omega) hup
        injection h with h
        injection h with _ h
        omega
      next t₁ hup =>
        have ht₁ : t₁ ≤ k := upLoop_stays_below hk (by omega) hup
        split at h
        next hdn => cases h
        next t₂ hdn =>
          have ht₂ : t₂ ≤ k := downLoop_stays_below hk ht₁ hdn
          injection h with h
          injection h with _ h
          omega

/-- C8: the RoundTripCheck run checks the cancellation signal at the top of
every iteration and inside both retry loops, returning `nil` (a clean exit,
the interrupted iteration not counted as a failure) whenever the signal has
fired at such a point; consequently, once the signal fires permanently, the
whole run — given fuel for the remaining iterations — exits cleanly with no
error. -/
theorem smokeRun_cancellation :
    (∀ (cancel upOk : Nat → Bool) (dl : Nat → Option Bool) n rng t,
      cancel t = true → smokeIter cancel upOk dl n rng t = Sum.inl ()) ∧
    (∀ (cancel upOk : Nat → Bool) r t, cancel t = true →
      upLoop cancel upOk (r + 1) false t = Sum.inl ()) ∧
    (∀ (cancel : Nat → Bool) (dl : Nat → Option Bool) r t, cancel t = true →
      downLoop cancel dl (r + 1) false t = Sum.inl ()) ∧
    (∀ (cancel upOk : Nat → Bool) (dl : Nat → Option Bool) n k fuel rng t,
      (∀ s, k ≤ s → cancel s = true) → t ≤ k → k < t + fuel →
      smokeRun cancel upOk dl n fuel rng t = .cleanNil) := by
  refine ⟨?_, ?_, ?_, ?_⟩
  · intro cancel upOk dl n rng t hc
    rw [smokeIter, if_pos hc]
  · intro cancel upOk r t hc
    rw [upLoop, if_neg (by simp), if_pos hc]
  · intro cancel dl r t hc
    rw [downLoop, if_neg (by simp), if_pos hc]
  · intro cancel upOk dl n k fuel
    induction fuel with
    | zero =>
      intro rng t _ ht hlt
      omega
    | succ fuel ih =>
      intro rng t hk ht hlt
      rw [smokeRun]
      cases hit : smokeIter cancel upOk dl n rng t with
      | inl u =>
        cases u
        rfl
      | inr p =>
        obtain ⟨rng', t'⟩ := p
        have h1 : t < t' := smokeIter_advances hit
        have h2 : t' ≤ k := smokeIter_stays_below hk ht hit
        exact ih rng' t' hk h2 (by omega)

/-- C8 witness: with the signal fired from the start, one unit of fuel
suffices for the clean exit, at a concrete seed and cluster size. -/
theorem smokeRun_cancellation_witness :
    smokeRun (fun _ => true) (fun _ => true) (fun _ => some true) 3 1
      (pseudoGenerator 0) 0 = RunOutcome.cleanNil :=
  smokeRun_cancellation.2.2.2 (fun _ => true) (fun _ => true)
    (fun _ => some true) 3 0 1 (pseudoGenerator 0) 0
    (fun _ _ => rfl) (by omega) (by omega)

/-! ### The replication scan of the light-node pushsync check (C3)

`chunk.ClosestNodeFromMap` lives outside the embedded sources, so it is
modelled from the specification (§4.2 Topology): scan the snapshot entries
not excluded, keep the one minimizing the XOR distance to the target, first
entry winning ties; fail when every node is excluded. -/

/-- One fold step of the modelled closest-node query. -/
def cnfmStep (target : Addr) (skip : List Addr)
    (acc : Option (String × Addr)) (p : String × Addr) :
    Option (String × Addr) :=
  if p.2 ∈ skip then acc
  else
    match acc with
    | none => some p
    | some q => if distNat p.2 target < distNat q.2 target then some p else acc

/-- Modelled from the spec: `closest(snapshot, target, excluded)` (§4.2) —
`bee.Chunk.ClosestNodeFromMap` is not under src.  Scans all (identifier,
address) pairs not excluded and returns the one minimizing the distance to
the target, ties broken by the fixed iteration order (first wins); `none`
when every node is excluded. -/
def closestNodeFromMap (snapshot : List (String × Addr)) (target : Addr)
    (skip : List Addr) : Option (String × Addr) :=
  snapshot.foldl (cnfmStep target skip) none

theorem cnfmStep_cases (target : Addr) (skip : List Addr)
    (acc : Option (String × Addr)) (p : String × Addr) :
    (p.2 ∈ skip ∧ cnfmStep target skip acc p = acc) ∨
    (p.2 ∉ skip ∧ ∃ a, cnfmStep target skip acc p = some a ∧
      (a = p ∨ acc = some a) ∧
      distNat a.2 target ≤ distNat p.2 target ∧
      (∀ q, acc = some q → distNat a.2 target ≤ distNat q.2 target)) := by
  by_cases hskip : p.2 ∈ skip
  · exact Or.inl ⟨hskip, by simp [cnfmStep, hskip]⟩
  · refine Or.inr ⟨hskip, ?_⟩
    cases acc with
    | none =>
      refine ⟨p, by simp [cnfmStep, hskip], Or.inl rfl, Nat.le_refl _, ?_⟩
      intro q hq
      cases hq
    | some q =>
      by_cases hlt : distNat p.2 target < distNat q.2 target
      · refine ⟨p, by simp [cnfmStep, hskip, hlt], Or.inl rfl, Nat.le_refl _, ?_⟩
        intro q' hq'
        injection hq' with hq'
        subst hq'
        omega
      · refine ⟨q, by simp [cnfmStep, hskip, hlt], Or.inr rfl, by omega, ?_⟩
        intro q' hq'
        injection hq' with hq'
        subst hq'
        omega

theorem cnfm_go_spec (target : Addr) (skip : List Addr) :
    ∀ (s : List (String × Addr)) (acc : Option (String × Addr)),
      (∀ q, acc = some q → q.2 ∉ skip) →
      (s.foldl (cnfmStep target skip) acc = none →
        acc = none ∧ ∀ p ∈ s, p.2 ∈ skip) ∧
      (∀ r, s.foldl (cnfmStep target skip) acc = some r →
        r.2 ∉ skip ∧ (acc = some r ∨ r ∈ s) ∧
        (∀ p ∈ s, p.2 ∉ skip → distNat r.2 target ≤ distNat p.2 target) ∧
        (∀ q, acc = some q → distNat r.2 target ≤ distNat q.2 target)) := by
  intro s
  induction s with
  | nil =>
    intro acc hacc
    constructor
    · intro h
      exact ⟨h, by simp⟩
    · intro r h
      rw [List.foldl_nil] at h
      refine ⟨hacc r h, Or.inl h, by simp, ?_⟩
      intro q hq
      rw [h] at hq
      injection hq with hq
      subst hq
      exact Nat.le_refl _
  | cons p s ih =>
    intro acc hacc
    rw [List.foldl_cons]
    rcases cnfmStep_cases target skip acc p with ⟨hskip, heq⟩ |
        ⟨hskip, a, heq, hmemA, hminA, hminAcc⟩
    · rw [heq]
      obtain ⟨ihnone, ihsome⟩ := ih acc hacc
      constructor
      · intro h
        obtain ⟨h1, h2⟩ := ihnone h
        refine ⟨h1, ?_⟩
        intro q hq
        rcases List.mem_cons.mp hq with rfl | hq'
        · exact hskip
        · exact h2 q hq'
      · intro r h
        obtain ⟨h1, h2, h3, h4⟩ := ihsome r h
        refine ⟨h1, ?_, ?_, h4⟩
        · rcases h2 with h2 | h2
          · exact Or.inl h2
          · exact Or.inr (List.mem_cons_of_mem _ h2)
        · intro q hq hq2
          rcases List.mem_cons.mp hq with rfl | hq'
          · exact absurd hskip hq2
          · exact h3 q hq' hq2
    · rw [heq]
      have hacc' : ∀ q, (some a : Option (String × Addr)) = some q →
          q.2 ∉ skip := by
        intro q hq
        injection hq with hq
        subst hq
        rcases hmemA with rfl | hA
        · exact hskip
        · exact hacc a hA
      obtain ⟨ihnone, ihsome⟩ := ih (some a) hacc'
      constructor
      · intro h
        obtain ⟨h1, _⟩ := ihnone h
        cases h1
      · intro r h
        obtain ⟨h1, h2, h3, h4⟩ := ihsome r h
        have hra : distNat r.2 target ≤ distNat a.2 target := h4 a rfl
        refine ⟨h1, ?_, ?_, ?_⟩
        · rcases h2 with h2 | h2
          · injection h2 with h2
            subst h2
            rcases hmemA with rfl | hA
            · exact Or.inr (List.mem_cons_self _ _)
            · exact Or.inl hA
          · exact Or.inr (List.mem_cons_of_mem _ h2)
        · intro q hq hq2
          rcases List.mem_cons.mp hq with rfl | hq'
          · exact Nat.le_trans hra hminA
          · exact h3 q hq' hq2
        · intro q hq
          exact Nat.le_trans hra (hminAcc q hq)

theorem closestNodeFromMap_none (snapshot : List (String × Addr))
    (target : Addr) (skip : List Addr)
    (h : closestNodeFromMap snapshot target skip = none) :
    ∀ p ∈ snapshot, p.2 ∈ skip :=
  ((cnfm_go_spec target skip snapshot none (by intro q hq; cases hq)).1 h).2

theorem closestNodeFromMap_some (snapshot : List (String × Addr))
    (target : Addr) (skip : List Addr) (r : String × Addr)
    (h : closestNodeFromMap snapshot target skip = some r) :
    r ∈ snapshot ∧ r.2 ∉ skip ∧
      ∀ p ∈ snapshot, p.2 ∉ skip →
        distNat r.2 target ≤ distNat p.2 target := by
  obtain ⟨h1, h2, h3, _⟩ :=
    (cnfm_go_spec target skip snapshot none (by intro q hq; cases hq)).2 r h
  rcases h2 with h2 | h2
  · cases h2
  · exact ⟨h2, h1, h3⟩

/-- The replication scan of `checkLightChunks` (check_lightnode.go lines
88–108): `for range overlays`, pick the closest node not yet skipped, add its
address to the skip list (the zero address when the query failed), ask it for
the chunk (`has`; `none` = transport error), succeed at the first possessor.
`none` is the fatal "chunk not replicated" return. -/
def scanLoop (snap : List (String × Addr)) (target : Addr)
    (has : String → Option Bool) : Nat → List Addr → Option String
  | 0, _ => none
  | fuel + 1, skip =>
    match closestNodeFromMap snap target skip with
    | none => scanLoop snap target has fuel (skip ++ [zeroAddr])
    | some (nm, ad) =>
      match has nm with
      | some true => some nm
      | _ => scanLoop snap target has fuel (skip ++ [ad])

/-- The nodes visited by the scan, in visit order. -/
def scanVisits (snap : List (String × Addr)) (target : Addr)
    (has : String → Option Bool) : Nat → List Addr → List (String × Addr)
  | 0, _ => []
  | fuel + 1, skip =>
    match closestNodeFromMap snap target skip with
    | none => scanVisits snap target has fuel (skip ++ [zeroAddr])
    | some (nm, ad) =>
      match has nm with
      | some true => [(nm, ad)]
      | _ => (nm, ad) :: scanVisits snap target has fuel (skip ++ [ad])

/-- The scan as entered by `checkLightChunks`: `len(overlays)` iterations,
the confirmed closest node excluded from the start. -/
def replicationScan (snap : List (String × Addr)) (target : Addr)
    (has : String → Option Bool) (closestAddr : Addr) : Option String :=
  scanLoop snap target has snap.length [closestAddr]

/-- The visit order of `replicationScan`. -/
def replicationVisits (snap : List (String × Addr)) (target : Addr)
    (has : String → Option Bool) (closestAddr : Addr) :
    List (String × Addr) :=
  scanVisits snap target has snap.length [closestAddr]

theorem scanVisits_mem (snap : List (String × Addr)) (target : Addr)
    (has : String → Option Bool) :
    ∀ fuel skip p, p ∈ scanVisits snap target has fuel skip →
      p ∈ snap ∧ p.2 ∉ skip := by
  intro fuel
  induction fuel with
  | zero =>
    intro skip p hp
    simp [scanVisits] at hp
  | succ fuel ih =>
    intro skip p hp
    rw [scanVisits] at hp
    cases hcl : closestNodeFromMap snap target skip with
    | none =>
      simp only [hcl] at hp
      obtain ⟨h1, h2⟩ := ih (skip ++ [zeroAddr]) p hp
      refine ⟨h1, fun hmem => h2 (List.mem_append_left _ hmem)⟩
    | some r =>
      obtain ⟨nm, ad⟩ := r
      obtain ⟨hmem, hnotin, _⟩ := closestNodeFromMap_some snap target skip _ hcl
      simp only [hcl] at hp
      cases hh : has nm with
      | some b =>
        cases b with
        | true =>
          simp only [hh] at hp
          rw [List.mem_singleton] at hp
          subst hp
          exact ⟨hmem, hnotin⟩
        | false =>
          simp only [hh] at hp
          rcases List.mem_cons.mp hp with rfl | hp'
          · exact ⟨hmem, hnotin⟩
          · obtain ⟨h1, h2⟩ := ih (skip ++ [ad]) p hp'
            exact ⟨h1, fun hmemS => h2 (List.mem_append_left _ hmemS)⟩
      | none =>
        simp only [hh] at hp
        rcases List.mem_cons.mp hp with rfl | hp'
        · exact ⟨hmem, hnotin⟩
        · obtain ⟨h1, h2⟩ := ih (skip ++ [ad]) p hp'
          exact ⟨h1, fun hmemS => h2 (List.mem_append_left _ hmemS)⟩

theorem scanVisits_sorted (snap : List (String × Addr)) (target : Addr)
    (has : String → Option Bool) :
    ∀ fuel skip,
      List.Pairwise
        (fun p q => distNat p.2 target ≤ distNat q.2 target)
        (scanVisits snap target has fuel skip) := by
  intro fuel
  induction fuel with
  | zero =>
    intro skip
    rw [scanVisits]
    exact List.Pairwise.nil
  | succ fuel ih =>
    intro skip
    rw [scanVisits]
    cases hcl : closestNodeFromMap snap target skip with
    | none =>
      simp only [hcl]
      exact ih (skip ++ [zeroAddr])
    | some r =>
      obtain ⟨nm, ad⟩ := r
      obtain ⟨hmem, hnotin, hmin⟩ := closestNodeFromMap_some snap target skip _ hcl
      have hhead : ∀ q ∈ scanVisits snap target has fuel (skip ++ [ad]),
          distNat ad target ≤ distNat q.2 target := by
        intro q hq
        obtain ⟨h1, h2⟩ := scanVisits_mem snap target has fuel (skip ++ [ad]) q hq
        exact hmin q h1 (fun hmemS => h2 (List.mem_append_left _ hmemS))
      simp only [hcl]
      cases hh : has nm with
      | some b =>
        cases b with
        | true =>
          simp only [hh]
          exact List.pairwise_singleton _ _
        | false =>
          simp only [hh]
          exact List.Pairwise.cons hhead (ih (skip ++ [ad]))
      | none =>
        simp only [hh]
        exact List.Pairwise.cons hhead (ih (skip ++ [ad]))

theorem scanLoop_eq_find (snap : List (String × Addr)) (target : Addr)
    (has : String → Option Bool) :
    ∀ fuel skip,
      scanLoop snap target has fuel skip =
        ((scanVisits snap target has fuel skip).find?
          (fun p => has p.1 == some true)).map (fun p => p.1) := by
  intro fuel
  induction fuel with
  | zero =>
    intro skip
    rfl
  | succ fuel ih =>
    intro skip
    rw [scanLoop, scanVisits]
    cases hcl : closestNodeFromMap snap target skip with
    | none =>
      simp only [hcl]
      exact ih (skip ++ [zeroAddr])
    | some r =>
      obtain ⟨nm, ad⟩ := r
      simp only [hcl]
      cases hh : has nm with
      | some b =>
        cases b with
        | true =>
          simp only [hh]
          rw [List.find?_cons_of_pos _ (by simp [hh])]
          rfl
        | false =>
          simp only [hh]
          rw [List.find?_cons_of_neg _ (by simp [hh])]
          exact ih (skip ++ [ad])
      | none =>
        simp only [hh]
        rw [List.find?_cons_of_neg _ (by simp [hh])]
        exact ih (skip ++ [ad])

theorem filter_length_mono {α : Type} {p q : α → Bool}
    (himp : ∀ a, q a = true → p a = true) :
    ∀ l : List α, (l.filter q).length ≤ (l.filter p).length := by
  intro l
  induction l with
  | nil => simp
  | cons a t ih =>
    cases hq : q a with
    | true =>
      rw [List.filter_cons_of_pos hq, List.filter_cons_of_pos (himp a hq)]
      simpa using ih
    | false =>
      rw [List.filter_cons_of_neg (by simp [hq])]
      cases hp : p a with
      | true =>
        rw [List.filter_cons_of_pos hp]
        exact Nat.le_trans ih (by simp)
      | false =>
        rw [List.filter_cons_of_neg (by simp [hp])]
        exact ih

theorem filter_length_strict {α : Type} {p q : α → Bool}
    (himp : ∀ a, q a = true → p a = true) :
    ∀ {l : List α} {x : α}, x ∈ l → p x = true → q x = false →
      (l.filter q).length < (l.filter p).length := by
  intro l
  induction l with
  | nil =>
    intro x hx
    cases hx
  | cons a t ih =>
    intro x hx hpx hqx
    rcases List.mem_cons.mp hx with rfl | hx'
    · rw [List.filter_cons_of_pos hpx, List.filter_cons_of_neg (by simp [hqx])]
      have := filter_length_mono himp t
      simp only [List.length_cons]
      omega
    · cases hq : q a with
      | true =>
        rw [List.filter_cons_of_pos hq, List.filter_cons_of_pos (himp a hq)]
        have := ih hx' hpx hqx
        simp only [List.length_cons]
        omega
      | false =>
        rw [List.filter_cons_of_neg (by simp [hq])]
        cases hp : p a with
        | true =>
          rw [List.filter_cons_of_pos hp]
          have := ih hx' hpx hqx
          simp only [List.length_cons]
          omega
        | false =>
          rw [List.filter_cons_of_neg (by simp [hp])]
          exact ih hx' hpx hqx

theorem scanLoop_none_complete (snap : List (String × Addr)) (target : Addr)
    (has : String → Option Bool) (hnd : (snap.map (fun p => p.2)).Nodup) :
    ∀ fuel skip,
      (snap.filter (fun p => decide (p.2 ∉ skip))).length ≤ fuel →
      scanLoop snap target has fuel skip = none →
      ∀ p ∈ snap, p.2 ∉ skip →
        p ∈ scanVisits snap target has fuel skip := by
  intro fuel
  induction fuel with
  | zero =>
    intro skip hlen _ p hp hnotin
    have : p ∈ snap.filter (fun p => decide (p.2 ∉ skip)) :=
      List.mem_filter.mpr ⟨hp, by simpa using hnotin⟩
    rw [List.length_eq_zero.mp (Nat.le_zero.mp hlen)] at this
    cases this
  | succ fuel ih =>
    intro skip hlen hnone p hp hnotin
    rw [scanLoop] at hnone
    rw [scanVisits]
    cases hcl : closestNodeFromMap snap target skip with
    | none =>
      exact absurd (closestNodeFromMap_none snap target skip hcl p hp) hnotin
    | some r =>
      obtain ⟨nm, ad⟩ := r
      obtain ⟨hmem, hnotinad, _⟩ := closestNodeFromMap_some snap target skip _ hcl
      simp only [hcl] at hnone ⊢
      have hlen' :
          (snap.filter (fun p => decide (p.2 ∉ skip ++ [ad]))).length ≤ fuel := by
        have himp : ∀ a : String × Addr,
            decide (a.2 ∉ skip ++ [ad]) = true → decide (a.2 ∉ skip) = true := by
          intro a ha
          simp only [decide_eq_true_eq] at ha ⊢
          exact fun hmem' => ha (List.mem_append_left _ hmem')
        have hstrict := filter_length_strict himp hmem
          (by simpa using hnotinad)
          (by simp)
        omega
      cases hh : has nm with
      | some b =>
        cases b with
        | true =>
          simp only [hh] at hnone
          exact Option.noConfusion hnone
        | false =>
          simp only [hh] at hnone ⊢
          by_cases hpad : p.2 = ad
          · have : p = (nm, ad) :=
              List.inj_on_of_nodup_map hnd hp hmem (by simpa using hpad)
            rw [this]
            exact List.mem_cons_self _ _
          · have hnotin' : p.2 ∉ skip ++ [ad] := by
              intro hmem'
              rcases List.mem_append.mp hmem' with h | h
              · exact hnotin h
              · exact hpad (List.mem_singleton.mp h)
            exact List.mem_cons_of_mem _
              (ih (skip ++ [ad]) hlen' hnone p hp hnotin')
      | none =>
        simp only [hh] at hnone ⊢
        by_cases hpad : p.2 = ad
        · have : p = (nm, ad) :=
            List.inj_on_of_nodup_map hnd hp hmem (by simpa using hpad)
          rw [this]
          exact List.mem_cons_self _ _
        · have hnotin' : p.2 ∉ skip ++ [ad] := by
            intro hmem'
            rcases List.mem_append.mp hmem' with h | h
            · exact hnotin h
            · exact hpad (List.mem_singleton.mp h)
          exact List.mem_cons_of_mem _
            (ih (skip ++ [ad]) hlen' hnone p hp hnotin')

/-- C3: for a snapshot with pairwise distinct addresses, the replication
scan visits only nodes other than the confirmed closest one, in ascending
XOR distance from the chunk address; its result is the first visited node
reporting possession; and it returns the fatal "not replicated" `none`
exactly when every other node has been visited and none reported
possession. -/
theorem replicationScan_spec (snap : List (String × Addr)) (target : Addr)
    (has : String → Option Bool) (closestAddr : Addr)
    (hnd : (snap.map (fun p => p.2)).Nodup) :
    (∀ p ∈ replicationVisits snap target has closestAddr,
      p ∈ snap ∧ p.2 ≠ closestAddr) ∧
    List.Pairwise (fun p q => distNat p.2 target ≤ distNat q.2 target)
      (replicationVisits snap target has closestAddr) ∧
    replicationScan snap target has closestAddr =
      ((replicationVisits snap target has closestAddr).find?
        (fun p => has p.1 == some true)).map (fun p => p.1) ∧
    (replicationScan snap target has closestAddr = none ↔
      (∀ p ∈ snap, p.2 ≠ closestAddr →
        p ∈ replicationVisits snap target has closestAddr) ∧
      (∀ p ∈ replicationVisits snap target has closestAddr,
        has p.1 ≠ some true)) := by
  have hfind := scanLoop_eq_find snap target has snap.length [closestAddr]
  refine ⟨?_, scanVisits_sorted snap target has snap.length [closestAddr],
    hfind, ?_, ?_⟩
  · intro p hp
    obtain ⟨h1, h2⟩ :=
      scanVisits_mem snap target has snap.length [closestAddr] p hp
    exact ⟨h1, fun he => h2 (by simp [he])⟩
  · intro hnone
    constructor
    · intro p hp hne
      refine scanLoop_none_complete snap target has hnd snap.length
        [closestAddr] (List.length_filter_le _ _) hnone p hp ?_
      intro hmem
      exact hne (List.mem_singleton.mp hmem)
    · intro p hp
      rw [replicationScan, hfind] at hnone
      have hfnone : (scanVisits snap target has snap.length [closestAddr]).find?
          (fun p => has p.1 == some true) = none := by
        cases hf : (scanVisits snap target has snap.length [closestAddr]).find?
            (fun p => has p.1 == some true) with
        | none => rfl
        | some q =>
          rw [hf] at hnone
          cases hnone
      have := List.find?_eq_none.mp hfnone p hp
      simpa using this
  · rintro ⟨_, hnoneHas⟩
    rw [replicationScan, hfind]
    rw [List.find?_eq_none.mpr (by
      intro x hx
      have := hnoneHas x hx
      simpa using this)]
    rfl

/-- C3 witness: the characterisation evaluated on a concrete three-node
snapshot where the second-closest candidate holds the chunk. -/
theorem replicationScan_spec_witness :
    replicationScan [("a", [0]), ("b", [128]), ("c", [255])] [127]
      (fun nm => if nm = "c" then some true else some false) [0] =
      ((replicationVisits [("a", [0]), ("b", [128]), ("c", [255])] [127]
        (fun nm => if nm = "c" then some true else some false) [0]).find?
        (fun p => (if p.1 = "c" then some true else some false) == some true)).map
        (fun p => p.1) :=
  (replicationScan_spec [("a", [0]), ("b", [128]), ("c", [255])] [127]
    (fun nm => if nm = "c" then some true else some false) [0]
    (by decide)).2.2.1

end Beekeeper
